import Mathlib

/-! Two-rank send/receive sum: `src/chatgpt/mpi.c`.

The program is one `main`, run once per process of an MPI group.  Every
process learns its `rank` and the group `size`, aborts the group unless
`size == 2`, and otherwise rank 1 sends its value to rank 0, rank 0 adds its
own value and sends the sum back, and both print it.

Embedding.

* `Proc` is the state of one process: the C variables of `main`
  (`rank`, `size`, `local_value`, `sum`, `received_value`; an `int` that has
  not been assigned yet is `none`), the statement it stands at (`Loc`, named
  by source line) and the history of what it has done so far (`trace`).
* `main_with a b` is `main` statement by statement, with the two literals
  `3` and `5` of lines 23 and 27 as parameters; `main` is `main_with 3 5`.
  It says what the statement at the current location asks of the runtime
  (`Request`) and what the process state is once that is granted.
* `World`, `steps`, `Step`, `Reach` are the process-group runtime, which is
  not part of the repository (`mpi.h`): blocking send and receive over FIFO
  channels, a group-wide abort, an arbitrary interleaving of the processes
  and an arbitrary buffering `Policy`.

Choices made in the embedding.

* A run starts at line 13: `MPI_Init`, `MPI_Comm_rank` and `MPI_Comm_size`
  have handed every process its `rank` and the common `size`.
* `MPI_Abort` ends the whole group, the caller included, and does not
  return: nothing runs after it.  This is the `abort` of the specification,
  "a group-wide `abort(code)` that terminates every participant".
* `int` is 32 bits wide; the one addition of the program is reduced to that
  width by `wrap_int`.
* `MPI_Finalize` is a statement of its own that involves no other process.
* `Proc.trace` and `World.wire` are history: they record what has happened
  and are never read by the program.
-/

namespace Mpi

/-! ## Machine integers -/

/-- Smallest value of the 32-bit C `int`. -/
def INT_MIN : Int := -2147483648

/-- Largest value of the 32-bit C `int`. -/
def INT_MAX : Int := 2147483647

/-- Two's-complement reduction of a mathematical integer to a 32-bit `int`:
what `local_value + received_value` yields on the usual targets. -/
def wrap_int (x : Int) : Int := (x + 2147483648) % 4294967296 - 2147483648

/-! ## One process -/

/-- Statements of `main`, named by their line in `mpi.c`; `exited` is the
state after `return 0`. -/
inductive Loc
  | L13 | L15 | L17 | L21 | L30 | L33 | L35 | L41 | L42 | L44 | L48 | L50 | L51
  | exited
  deriving DecidableEq, Repr

/-- What a process has done so far, in program order. -/
inductive Event
  | sent (dest tag val : Int)
  | received (source tag val : Int)
  | stdout (line : String)
  | stderr (line : String)
  | abort (code : Int)
  | exit (code : Int)
  deriving DecidableEq, Repr

/-- State of one process running `main`. -/
structure Proc where
  rank : Int
  size : Int
  local_value : Option Int
  sum : Option Int
  received_value : Option Int
  pc : Loc
  trace : List Event
  deriving DecidableEq, Repr

/-- The text of line 16. -/
def DIAG : String := "This program requires exactly 2 processes.\n"

/-- The text printed by line 48: `printf("Rank %d: Final sum is %d\n", rank, sum)`. -/
def final_line (rank sum : Int) : String :=
  "Rank " ++ toString rank ++ ": Final sum is " ++ toString sum ++ "\n"

/-- What the statement a process stands at asks of the runtime, together with
the state of the process once the statement has completed. -/
inductive Request
  | step (next : Proc)
  | send (dest tag val : Int) (next : Proc)
  | recv (source tag : Int) (next : Int → Proc)
  | abort (code : Int) (next : Proc)
  | undefined
  | halted

/-- The body of `main` from line 13 on, one statement at a time.  `a` and `b`
stand for the literals of lines 23 and 27.  Reading an `int` that was never
assigned is `Request.undefined`. -/
def main_with (a b : Int) (p : Proc) : Request :=
  match p.pc with
  | .L13 =>                                   -- if (size != 2)
    if p.size ≠ 2 then .step { p with pc := .L15 } else .step { p with pc := .L21 }
  | .L15 =>                                   -- if (rank == 0) fprintf(stderr, ...)
    if p.rank = 0 then .step { p with pc := .L17, trace := p.trace ++ [.stderr DIAG] }
    else .step { p with pc := .L17 }
  | .L17 =>                                   -- MPI_Abort(MPI_COMM_WORLD, 1)
    .abort 1 { p with trace := p.trace ++ [.abort 1] }
  | .L21 =>                                   -- if (rank == 0) local_value = 3; else local_value = 5;
    if p.rank = 0 then .step { p with local_value := some a, pc := .L30 }
    else .step { p with local_value := some b, pc := .L30 }
  | .L30 =>                                   -- if (rank == 1) ... else if (rank == 0) ...
    if p.rank = 1 then .step { p with pc := .L33 }
    else if p.rank = 0 then .step { p with pc := .L41 }
    else .step { p with pc := .L48 }
  | .L33 =>                                   -- MPI_Send(&local_value, 1, MPI_INT, 0, 0, ...)
    match p.local_value with
    | some v => .send 0 0 v { p with pc := .L35, trace := p.trace ++ [.sent 0 0 v] }
    | none => .undefined
  | .L35 =>                                   -- MPI_Recv(&sum, 1, MPI_INT, 0, 0, ...)
    .recv 0 0 (fun v => { p with sum := some v, pc := .L48,
                                 trace := p.trace ++ [.received 0 0 v] })
  | .L41 =>                                   -- MPI_Recv(&received_value, 1, MPI_INT, 1, 0, ...)
    .recv 1 0 (fun v => { p with received_value := some v, pc := .L42,
                                 trace := p.trace ++ [.received 1 0 v] })
  | .L42 =>                                   -- sum = local_value + received_value;
    match p.local_value, p.received_value with
    | some x, some y => .step { p with sum := some (wrap_int (x + y)), pc := .L44 }
    | _, _ => .undefined
  | .L44 =>                                   -- MPI_Send(&sum, 1, MPI_INT, 1, 0, ...)
    match p.sum with
    | some s => .send 1 0 s { p with pc := .L48, trace := p.trace ++ [.sent 1 0 s] }
    | none => .undefined
  | .L48 =>                                   -- printf("Rank %d: Final sum is %d\n", rank, sum)
    match p.sum with
    | some s => .step { p with pc := .L50, trace := p.trace ++ [.stdout (final_line p.rank s)] }
    | none => .undefined
  | .L50 =>                                   -- MPI_Finalize()
    .step { p with pc := .L51 }
  | .L51 =>                                   -- return 0
    .step { p with pc := .exited, trace := p.trace ++ [.exit 0] }
  | .exited => .halted

/-- The program as written: local values 3 (rank 0) and 5 (every other rank). -/
def main : Proc → Request := main_with 3 5

/-- State of a process when it reaches line 13: `MPI_Comm_rank` and
`MPI_Comm_size` have filled in `rank` and `size`, nothing else is assigned. -/
def Proc.init (rank size : Int) : Proc :=
  { rank := rank, size := size, local_value := none, sum := none,
    received_value := none, pc := .L13, trace := [] }

/-! ## The process group -/

/-- One message on the wire: the sender, the receiver, the tag and the `int`. -/
structure Msg where
  source : Int
  dest : Int
  tag : Int
  val : Int
  deriving DecidableEq, Repr

/-- Whether the group is still running or was aborted with a code. -/
inductive Status
  | running
  | aborted (code : Int)
  deriving DecidableEq, Repr

/-- Modelled from the spec: the state of the process-group runtime, which is
`mpi.h` and not in the repository.  `procs` holds the processes by rank,
`chan` the messages that were sent and not yet received, oldest first, `wire`
every message sent so far, and `status` whether `abort` was called. -/
structure World where
  procs : List Proc
  chan : List Msg
  wire : List Msg
  status : Status
  deriving DecidableEq, Repr

/-- Modelled from the spec: the buffering policy of the channel, "a send may
or may not block depending on the channel's buffering policy".  `eager s d k`
says whether a send from `s` to `d` may complete on its own while `k` messages
from `s` to `d` are already in flight. -/
structure Policy where
  eager : Int → Int → Nat → Bool

/-- Modelled from the spec: the "fully synchronous (unbuffered, blocking)
channel": a send completes only together with its matching receive. -/
def synchronous : Policy := ⟨fun _ _ _ => false⟩

/-- A channel that buffers every message: a send never waits. -/
def buffered : Policy := ⟨fun _ _ _ => true⟩

/-- A message of the channel keyed by sender, receiver and tag. -/
def matching (source dest tag : Int) (m : Msg) : Bool :=
  decide (m.source = source ∧ m.dest = dest ∧ m.tag = tag)

/-- Modelled from the spec: every move process `i` can make in `w`, for a
runtime that offers blocking `send`, blocking `receive`, FIFO delivery per
(sender, receiver, tag) and a group-wide `abort` that terminates every
participant.

* a local statement just runs;
* `abort code` ends the group with that code;
* a send completes either by leaving the message in the channel, if the
  policy allows, or together with the receive its destination is blocked on
  (only when no older message of the same key is waiting);
* a receive completes by taking the oldest waiting message of its key, and
  waits when there is none. -/
def stepsOf (prog : Proc → Request) (pol : Policy) (w : World) (i : Nat) : List World :=
  match w.procs[i]? with
  | none => []
  | some p =>
    match prog p with
    | .step p' => [{ w with procs := w.procs.set i p' }]
    | .abort code p' => [{ w with procs := w.procs.set i p', status := .aborted code }]
    | .send dest tag val p' =>
      (if pol.eager p.rank dest
            (w.chan.countP (fun m => decide (m.source = p.rank ∧ m.dest = dest))) = true then
        [{ w with procs := w.procs.set i p',
                  chan := w.chan ++ [⟨p.rank, dest, tag, val⟩],
                  wire := w.wire ++ [⟨p.rank, dest, tag, val⟩] }]
      else []) ++
      (if dest < 0 ∨ (w.chan.find? (matching p.rank dest tag)).isSome = true then []
      else
        match w.procs[dest.toNat]? with
        | none => []
        | some q =>
          match prog q with
          | .recv source tag' k =>
            if source = p.rank ∧ tag' = tag then
              [{ w with procs := (w.procs.set i p').set dest.toNat (k val),
                        wire := w.wire ++ [⟨p.rank, dest, tag, val⟩] }]
            else []
          | _ => [])
    | .recv source tag k =>
      match w.chan.find? (matching source p.rank tag) with
      | some m => [{ w with procs := w.procs.set i (k m.val),
                            chan := w.chan.eraseP (matching source p.rank tag) }]
      | none => []
    | .undefined => []
    | .halted => []

/-- Modelled from the spec: all successors of `w`.  After an abort nothing
runs any more; otherwise any one process may move. -/
def steps (prog : Proc → Request) (pol : Policy) (w : World) : List World :=
  match w.status with
  | .aborted _ => []
  | .running => (List.range w.procs.length).flatMap (stepsOf prog pol w)

/-- One move of the group. -/
def Step (prog : Proc → Request) (pol : Policy) (w w' : World) : Prop :=
  w' ∈ steps prog pol w

/-- Runs: any number of moves. -/
def Reach (prog : Proc → Request) (pol : Policy) (w w' : World) : Prop :=
  Relation.ReflTransGen (Step prog pol) w w'

/-- The group of `n` processes as the runtime starts it: ranks `0 .. n-1`,
every process at line 13, nothing sent. -/
def World.init (n : Nat) : World :=
  { procs := (List.range n).map (fun (i : Nat) => Proc.init (i : Int) (n : Int)),
    chan := [], wire := [], status := .running }

/-- A completed run: the group was not aborted and every process has returned
from `main`. -/
def World.completed (w : World) : Bool :=
  decide (w.status = .running) && w.procs.all (fun p => decide (p.pc = .exited))

/-- The final value of the process of rank `r`: its `sum`. -/
def World.sumOf (w : World) (r : Nat) : Option Int :=
  (w.procs[r]?).bind (fun p => p.sum)

/-- The history of the process of rank `r`. -/
def World.traceOf (w : World) (r : Nat) : List Event :=
  ((w.procs[r]?).map (fun p => p.trace)).getD []

/-! ## The two-rank run: the states it can be in -/

/-- The message of line 33: rank 1's value, to rank 0. -/
def msg_up (b : Int) : Msg := ⟨1, 0, 0, b⟩

/-- The message of line 44: the sum, to rank 1. -/
def msg_down (a b : Int) : Msg := ⟨0, 1, 0, wrap_int (a + b)⟩

/-- State of rank 0 of a two-rank run when it stands at `l`. -/
def rank0_at (a b : Int) (l : Loc) : Proc :=
  match l with
  | .L21 => ⟨0, 2, none, none, none, .L21, []⟩
  | .L30 => ⟨0, 2, some a, none, none, .L30, []⟩
  | .L41 => ⟨0, 2, some a, none, none, .L41, []⟩
  | .L42 => ⟨0, 2, some a, none, some b, .L42, [.received 1 0 b]⟩
  | .L44 => ⟨0, 2, some a, some (wrap_int (a + b)), some b, .L44, [.received 1 0 b]⟩
  | .L48 => ⟨0, 2, some a, some (wrap_int (a + b)), some b, .L48,
      [.received 1 0 b, .sent 1 0 (wrap_int (a + b))]⟩
  | .L50 => ⟨0, 2, some a, some (wrap_int (a + b)), some b, .L50,
      [.received 1 0 b, .sent 1 0 (wrap_int (a + b)),
       .stdout (final_line 0 (wrap_int (a + b)))]⟩
  | .L51 => ⟨0, 2, some a, some (wrap_int (a + b)), some b, .L51,
      [.received 1 0 b, .sent 1 0 (wrap_int (a + b)),
       .stdout (final_line 0 (wrap_int (a + b)))]⟩
  | .exited => ⟨0, 2, some a, some (wrap_int (a + b)), some b, .exited,
      [.received 1 0 b, .sent 1 0 (wrap_int (a + b)),
       .stdout (final_line 0 (wrap_int (a + b))), .exit 0]⟩
  | _ => ⟨0, 2, none, none, none, .L13, []⟩

/-- State of rank 1 of a two-rank run when it stands at `l`. -/
def rank1_at (a b : Int) (l : Loc) : Proc :=
  match l with
  | .L21 => ⟨1, 2, none, none, none, .L21, []⟩
  | .L30 => ⟨1, 2, some b, none, none, .L30, []⟩
  | .L33 => ⟨1, 2, some b, none, none, .L33, []⟩
  | .L35 => ⟨1, 2, some b, none, none, .L35, [.sent 0 0 b]⟩
  | .L48 => ⟨1, 2, some b, some (wrap_int (a + b)), none, .L48,
      [.sent 0 0 b, .received 0 0 (wrap_int (a + b))]⟩
  | .L50 => ⟨1, 2, some b, some (wrap_int (a + b)), none, .L50,
      [.sent 0 0 b, .received 0 0 (wrap_int (a + b)),
       .stdout (final_line 1 (wrap_int (a + b)))]⟩
  | .L51 => ⟨1, 2, some b, some (wrap_int (a + b)), none, .L51,
      [.sent 0 0 b, .received 0 0 (wrap_int (a + b)),
       .stdout (final_line 1 (wrap_int (a + b)))]⟩
  | .exited => ⟨1, 2, some b, some (wrap_int (a + b)), none, .exited,
      [.sent 0 0 b, .received 0 0 (wrap_int (a + b)),
       .stdout (final_line 1 (wrap_int (a + b))), .exit 0]⟩
  | _ => ⟨1, 2, none, none, none, .L13, []⟩

/-- Rank 0 is past its receive of line 41. -/
def got0 : Loc → Bool
  | .L42 | .L44 | .L48 | .L50 | .L51 | .exited => true
  | _ => false

/-- Rank 0 is past its send of line 44. -/
def replied0 : Loc → Bool
  | .L48 | .L50 | .L51 | .exited => true
  | _ => false

/-- Rank 1 is past its send of line 33. -/
def sent1 : Loc → Bool
  | .L35 | .L48 | .L50 | .L51 | .exited => true
  | _ => false

/-- Rank 1 is past its receive of line 35. -/
def got1 : Loc → Bool
  | .L48 | .L50 | .L51 | .exited => true
  | _ => false

/-- Lines rank 0 of a two-rank run passes through. -/
def on0 : Loc → Bool
  | .L15 | .L17 | .L33 | .L35 => false
  | _ => true

/-- Lines rank 1 of a two-rank run passes through. -/
def on1 : Loc → Bool
  | .L15 | .L17 | .L41 | .L42 | .L44 => false
  | _ => true

/-- The pairs of locations the two ranks can stand at together: a receive is
passed only after the matching send. -/
def valid (l0 l1 : Loc) : Bool :=
  on0 l0 && on1 l1 && (!got0 l0 || sent1 l1) && (!got1 l1 || replied0 l0)

/-- The two-rank group when rank 0 stands at `l0` and rank 1 at `l1`. -/
def canon (a b : Int) (l0 l1 : Loc) : World :=
  { procs := [rank0_at a b l0, rank1_at a b l1],
    chan := (if sent1 l1 && !got0 l0 then [msg_up b] else []) ++
            (if replied0 l0 && !got1 l1 then [msg_down a b] else []),
    wire := (if sent1 l1 then [msg_up b] else []) ++
            (if replied0 l0 then [msg_down a b] else []),
    status := .running }

/-- Statements a process still has to run from `l`, at most. -/
def Loc.togo : Loc → Nat
  | .L13 => 12 | .L15 => 2 | .L17 => 1 | .L21 => 11 | .L30 => 10 | .L33 => 9 | .L35 => 8
  | .L41 => 9 | .L42 => 8 | .L44 => 7 | .L48 => 3 | .L50 => 2 | .L51 => 1 | .exited => 0

/-- Bound on the number of moves the group can still make. -/
def World.togo (w : World) : Nat :=
  match w.status with
  | .aborted _ => 0
  | .running => 1 + (w.procs.map (fun p => p.pc.togo)).sum

/-- Whether `w` is a state of `canon` closer to the end than `canon a b l0 l1`. -/
def isNext (a b : Int) (l0 l1 : Loc) (w : World) : Bool :=
  match w.procs with
  | [p0, p1] => valid p0.pc p1.pc && decide (w = canon a b p0.pc p1.pc) &&
      decide (p0.pc.togo + p1.pc.togo < l0.togo + l1.togo)
  | _ => false

/-- The invariant of the two-rank run: the group is in one of the states of
`canon`. -/
def Canon (a b : Int) (w : World) : Prop :=
  ∃ l0 l1, valid l0 l1 = true ∧ w = canon a b l0 l1

/-- Under the synchronous channel a send and its receive are passed together:
rank 1 is past line 33 exactly when rank 0 is past line 41, and rank 0 is past
line 44 exactly when rank 1 is past line 35. -/
def inStep (w : World) : Bool :=
  match w.procs with
  | [p0, p1] => (sent1 p1.pc == got0 p0.pc) && (replied0 p0.pc == got1 p1.pc)
  | _ => false

/-! ## A group of the wrong size: the states it can be in -/

/-- State of the process of rank `i` in a group of `n` processes, `n ≠ 2`,
when it stands at `l`; `called` says whether it has called `MPI_Abort`. -/
def abort_at (n i : Nat) (l : Loc) (called : Bool) : Proc :=
  { rank := (i : Int), size := (n : Int), local_value := none, sum := none,
    received_value := none, pc := l,
    trace := (if i = 0 ∧ l = .L17 then [.stderr DIAG] else []) ++
             (if called = true then [.abort 1] else []) }

/-- The invariant of a group of the wrong size: nothing was sent, every
process is in lines 13 to 17, and the group is aborted, with code 1, exactly
when one of them has called `MPI_Abort` at line 17. -/
def Aborting (n : Nat) (w : World) : Prop :=
  w.procs.length = n ∧ w.chan = [] ∧ w.wire = [] ∧
  (w.status = .running ∨
    (w.status = .aborted 1 ∧ ∃ i, w.procs[i]? = some (abort_at n i .L17 true))) ∧
  ∀ i p, w.procs[i]? = some p →
    ∃ l c, p = abort_at n i l c ∧ (l = .L13 ∨ l = .L15 ∨ l = .L17) ∧
      (c = true → l = .L17 ∧ w.status = .aborted 1)

/-! ## One process on its own -/

/-- The moves of one process taken alone: its statement completes, and a
receive may deliver any value.  A process that calls `abort`, reads an
unassigned variable or has returned makes no move. -/
def Proc.moves (prog : Proc → Request) (p q : Proc) : Prop :=
  match prog p with
  | .step p' => q = p'
  | .send _ _ _ p' => q = p'
  | .recv _ _ k => ∃ v, q = k v
  | .abort _ _ => False
  | .undefined => False
  | .halted => False

/-- The states one process can get to, whatever it is sent. -/
def Proc.Runs (prog : Proc → Request) (p q : Proc) : Prop :=
  Relation.ReflTransGen (Proc.moves prog) p q

/-- What is known of the variables of rank 0 of a group of two at each line. -/
def known0 (a : Int) (q : Proc) : Prop :=
  q.rank = 0 ∧ q.size = 2 ∧
  match q.pc with
  | .L13 | .L21 => True
  | .L30 | .L41 => q.local_value = some a
  | .L42 => q.local_value = some a ∧ ∃ y, q.received_value = some y
  | .L44 | .L48 | .L50 | .L51 | .exited =>
    q.local_value = some a ∧ ∃ y, q.received_value = some y ∧ q.sum = some (wrap_int (a + y))
  | _ => False

/-- What is known of the variables of rank 1 of a group of two at each line. -/
def known1 (b : Int) (q : Proc) : Prop :=
  q.rank = 1 ∧ q.size = 2 ∧
  match q.pc with
  | .L13 | .L21 => True
  | .L30 | .L33 | .L35 => q.local_value = some b
  | .L48 | .L50 | .L51 | .exited => ∃ v, q.sum = some v ∧ Event.received 0 0 v ∈ q.trace
  | _ => False

/-- A send event. -/
def Event.isSent : Event → Bool
  | .sent _ _ _ => true
  | _ => false

/-- A receive event. -/
def Event.isReceived : Event → Bool
  | .received _ _ _ => true
  | _ => false

/-- A line on standard output. -/
def Event.isStdout : Event → Bool
  | .stdout _ => true
  | _ => false

/-- A line on standard error. -/
def Event.isStderr : Event → Bool
  | .stderr _ => true
  | _ => false

/-- The events of a history that come before its first line on standard
output. -/
def beforePrint (t : List Event) : List Event :=
  t.takeWhile (fun e => !e.isStdout)

/-- The completed two-rank run: both ranks have returned. -/
def finished (a b : Int) : World := canon a b .exited .exited

/-- A run of three processes in which rank 1 is the first to reach line 17:
the state when its `MPI_Abort` has ended the group. -/
def rank1_aborted_first : World :=
  { procs := [abort_at 3 0 .L13 false, abort_at 3 1 .L17 true, abort_at 3 2 .L13 false],
    chan := [], wire := [], status := .aborted 1 }

/-- The one way a group of a single process ends: rank 0 has printed the
diagnostic and called `MPI_Abort`. -/
def alone_aborted : World :=
  { procs := [abort_at 1 0 .L17 true], chan := [], wire := [], status := .aborted 1 }

/-- Rank 1 of a group of two at line 48, having been sent `v`. -/
def rank1_got (b v : Int) : Proc :=
  ⟨1, 2, some b, some v, none, .L48, [.sent 0 0 b, .received 0 0 v]⟩

/-! ## Runs -/

/-- An invariant of the moves that holds at the start holds along every run. -/
theorem Reach.invariant {prog : Proc → Request} {pol : Policy} (I : World → Prop)
    (hstep : ∀ w w', I w → w' ∈ steps prog pol w → I w') {w w' : World}
    (h : Reach prog pol w w') (h0 : I w) : I w' := by
  induction h with
  | refl => exact h0
  | tail _ hs ih => exact hstep _ _ ih hs

/-- When every state of an invariant is either accepted by `done` or can make
a move that lowers `World.togo`, an accepted state is reached. -/
theorem finishes {prog : Proc → Request} {pol : Policy} (I : World → Prop)
    (fin : World → Prop)
    (hlive : ∀ w, I w → fin w ∨ ∃ w', w' ∈ steps prog pol w ∧ I w' ∧ w'.togo < w.togo) :
    ∀ (k : Nat) (w : World), w.togo ≤ k → I w → ∃ w', Reach prog pol w w' ∧ I w' ∧ fin w' := by
  intro k
  induction k with
  | zero =>
    intro w hk hI
    rcases hlive w hI with hd | ⟨w', _, _, hlt⟩
    · exact ⟨w, Relation.ReflTransGen.refl, hI, hd⟩
    · omega
  | succ k ih =>
    intro w hk hI
    rcases hlive w hI with hd | ⟨w', hs, hI', hlt⟩
    · exact ⟨w, Relation.ReflTransGen.refl, hI, hd⟩
    · obtain ⟨w'', hr, hI'', hd⟩ := ih w' (by omega) hI'
      exact ⟨w'', Relation.ReflTransGen.head hs hr, hI'', hd⟩

/-! ## The two-rank run -/

theorem canon_step (a b : Int) (pol : Policy) (l0 l1 : Loc) (hv : valid l0 l1 = true) :
    (steps (main_with a b) pol (canon a b l0 l1)).all (isNext a b l0 l1) = true := by
  cases l0 <;> cases l1 <;> simp [valid, on0, on1, got0, got1, sent1, replied0] at hv <;>
    simp [steps, stepsOf, canon, rank0_at, rank1_at, main_with, isNext, valid, on0, on1,
      got0, got1, sent1, replied0, List.range, List.range.loop, msg_up, msg_down, matching,
      Loc.togo]

theorem canon_live (a b : Int) (pol : Policy) (l0 l1 : Loc) (hv : valid l0 l1 = true) :
    (l0 = .exited ∧ l1 = .exited) ∨ steps (main_with a b) pol (canon a b l0 l1) ≠ [] := by
  cases l0 <;> cases l1 <;> simp [valid, on0, on1, got0, got1, sent1, replied0] at hv <;>
    simp [steps, stepsOf, canon, rank0_at, rank1_at, main_with, valid, on0, on1,
      got0, got1, sent1, replied0, List.range, List.range.loop, msg_up, msg_down, matching]

theorem canon_togo (a b : Int) (l0 l1 : Loc) (hv : valid l0 l1 = true) :
    (canon a b l0 l1).togo = 1 + (l0.togo + l1.togo) := by
  cases l0 <;> cases l1 <;> first | rfl | cases hv

theorem isNext_spec (a b : Int) (l0 l1 : Loc) (w : World) (hv0 : valid l0 l1 = true)
    (h : isNext a b l0 l1 w = true) :
    Canon a b w ∧ w.togo < (canon a b l0 l1).togo := by
  unfold isNext at h
  split at h
  · next p0 p1 _ =>
    simp only [Bool.and_eq_true, decide_eq_true_eq] at h
    obtain ⟨⟨hv, hw⟩, hlt⟩ := h
    refine ⟨⟨p0.pc, p1.pc, hv, hw⟩, ?_⟩
    rw [hw, canon_togo a b _ _ hv, canon_togo a b _ _ hv0]
    omega
  · cases h

theorem init_two (a b : Int) : World.init 2 = canon a b .L13 .L13 := rfl

theorem Canon.next {a b : Int} {pol : Policy} {w w' : World} (h : Canon a b w)
    (hs : w' ∈ steps (main_with a b) pol w) : Canon a b w' ∧ w'.togo < w.togo := by
  obtain ⟨l0, l1, hv, rfl⟩ := h
  exact isNext_spec a b l0 l1 w' hv (List.all_eq_true.mp (canon_step a b pol l0 l1 hv) w' hs)

theorem reach_canon {a b : Int} {pol : Policy} {w : World}
    (h : Reach (main_with a b) pol (World.init 2) w) : Canon a b w :=
  Reach.invariant (Canon a b) (fun _ _ hI hs => (Canon.next hI hs).1) h
    ⟨.L13, .L13, rfl, init_two a b⟩

theorem Canon.completes {a b : Int} (pol : Policy) {w : World} (h : Canon a b w) :
    Reach (main_with a b) pol w (canon a b .exited .exited) := by
  have key := finishes (Canon a b) (fun w => w = canon a b .exited .exited) (by
      intro w hI
      obtain ⟨l0, l1, hv, rfl⟩ := hI
      rcases canon_live a b pol l0 l1 hv with ⟨rfl, rfl⟩ | hne
      · exact Or.inl rfl
      · obtain ⟨w', hw'⟩ := List.exists_mem_of_ne_nil _ hne
        have := Canon.next (Exists.intro l0 ⟨l1, hv, rfl⟩) hw'
        exact Or.inr ⟨w', hw', this.1, this.2⟩) w.togo w le_rfl h
  obtain ⟨w', hr, _, rfl⟩ := key
  exact hr

theorem sync_step (a b : Int) (l0 l1 : Loc) (hv : valid l0 l1 = true)
    (hs : inStep (canon a b l0 l1) = true) :
    (steps (main_with a b) synchronous (canon a b l0 l1)).all inStep = true := by
  cases l0 <;> cases l1 <;> simp [valid, on0, on1, got0, got1, sent1, replied0] at hv <;>
    simp [inStep, canon, rank0_at, rank1_at, got0, got1, sent1, replied0] at hs <;>
    simp [steps, stepsOf, canon, rank0_at, rank1_at, main_with, inStep, synchronous,
      got0, got1, sent1, replied0, List.range, List.range.loop, msg_up, msg_down, matching]

theorem reach_inStep {a b : Int} {w : World}
    (h : Reach (main_with a b) synchronous (World.init 2) w) :
    Canon a b w ∧ inStep w = true := by
  refine Reach.invariant (fun w => Canon a b w ∧ inStep w = true) ?_ h
    ⟨⟨.L13, .L13, rfl, init_two a b⟩, rfl⟩
  rintro w w' ⟨hc, hi⟩ hs
  refine ⟨(Canon.next hc hs).1, ?_⟩
  obtain ⟨l0, l1, hv, rfl⟩ := hc
  exact List.all_eq_true.mp (sync_step a b l0 l1 hv hi) w' hs

theorem canon_completed (a b : Int) (l0 l1 : Loc) (hv : valid l0 l1 = true)
    (hc : (canon a b l0 l1).completed = true) : l0 = .exited ∧ l1 = .exited := by
  cases l0 <;> cases l1 <;>
    simp_all [World.completed, canon, rank0_at, rank1_at, valid, on0, on1, got0, got1, sent1,
      replied0]

/-! ## A group of the wrong size -/

theorem sum_set_lt (f : Proc → Nat) :
    ∀ (l : List Proc) (i : Nat) (p p' : Proc), l[i]? = some p → f p' < f p →
      ((l.set i p').map f).sum < (l.map f).sum := by
  intro l
  induction l with
  | nil => intro i p p' h; simp at h
  | cons x xs ih =>
    intro i p p' h hlt
    cases i with
    | zero =>
      simp at h
      subst h
      simp
      exact hlt
    | succ k =>
      simp at h
      have := ih k p p' h hlt
      simp only [List.set_cons_succ, List.map_cons, List.sum_cons]
      omega

theorem mem_steps {prog : Proc → Request} {pol : Policy} {w w' : World} {i : Nat}
    (hst : w.status = .running) (hi : i < w.procs.length) (h : w' ∈ stepsOf prog pol w i) :
    w' ∈ steps prog pol w := by
  unfold steps
  rw [hst]
  exact List.mem_flatMap.mpr ⟨i, List.mem_range.mpr hi, h⟩

theorem init_aborting (n : Nat) : Aborting n (World.init n) := by
  refine ⟨by simp [World.init], rfl, rfl, Or.inl rfl, ?_⟩
  intro i p hp
  simp only [World.init, List.getElem?_map] at hp
  by_cases hi : i < n
  · rw [List.getElem?_range hi] at hp
    simp at hp
    subst hp
    exact ⟨.L13, false, by simp [Proc.init, abort_at], Or.inl rfl, by simp⟩
  · rw [List.getElem?_eq_none (by simpa using hi)] at hp
    cases hp

theorem Aborting.update {n : Nat} {w : World} (h : Aborting n w) (i : Nat) (l : Loc) (c : Bool)
    (s : Status) (hw : w.status = .running) (hi : i < w.procs.length)
    (hl : l = .L13 ∨ l = .L15 ∨ l = .L17)
    (hs : (s = .running ∧ c = false) ∨ (s = .aborted 1 ∧ l = .L17 ∧ c = true)) :
    Aborting n { w with procs := w.procs.set i (abort_at n i l c), status := s } := by
  obtain ⟨hlen, hchan, hwire, _, hp⟩ := h
  refine ⟨by simp [hlen], hchan, hwire, ?_, ?_⟩
  · rcases hs with ⟨rfl, _⟩ | ⟨rfl, rfl, rfl⟩
    · exact Or.inl rfl
    · exact Or.inr ⟨rfl, i, by simp [List.getElem?_set, hi]⟩
  · intro j q hq
    simp only [List.getElem?_set] at hq
    split at hq
    · next hij =>
      subst hij
      cases hq
      refine ⟨l, c, rfl, hl, ?_⟩
      intro hc
      rcases hs with ⟨_, hcf⟩ | ⟨rfl, hl17, _⟩
      · rw [hcf] at hc; cases hc
      · exact ⟨hl17, rfl⟩
    · obtain ⟨l', c', hq', hl', hc'⟩ := hp j q hq
      refine ⟨l', c', hq', hl', ?_⟩
      intro hc
      refine ⟨(hc' hc).1, ?_⟩
      rcases hs with ⟨rfl, _⟩ | ⟨rfl, _⟩
      · exact absurd (hc' hc).2 (by rw [hw]; intro h; cases h)
      · rfl

theorem Aborting.stepsOf_eq {a b : Int} {pol : Policy} {n : Nat} (hn : n ≠ 2) {w : World}
    (h : Aborting n w) (hst : w.status = .running) {i : Nat} {p : Proc}
    (hpi : w.procs[i]? = some p) :
    ∃ l c s, (l = .L13 ∨ l = .L15 ∨ l = .L17) ∧
      ((s = .running ∧ c = false) ∨ (s = .aborted 1 ∧ l = .L17 ∧ c = true)) ∧
      (s = .running → l.togo < p.pc.togo) ∧
      stepsOf (main_with a b) pol w i =
        [{ w with procs := w.procs.set i (abort_at n i l c), status := s }] := by
  obtain ⟨l, c, rfl, hl, hc⟩ := h.2.2.2.2 i p hpi
  have hcf : c = false := by
    cases c
    · rfl
    · have := (hc rfl).2
      rw [hst] at this
      cases this
  subst hcf
  have hn' : (n : Int) ≠ 2 := by exact_mod_cast hn
  unfold stepsOf
  rw [hpi]
  rcases hl with rfl | rfl | rfl
  · refine ⟨.L15, false, .running, Or.inr (Or.inl rfl), Or.inl ⟨rfl, rfl⟩, (fun _ => by simp [abort_at, Loc.togo]), ?_⟩
    simp [main_with, abort_at, hn', hst]
  · refine ⟨.L17, false, .running, Or.inr (Or.inr rfl), Or.inl ⟨rfl, rfl⟩, (fun _ => by simp [abort_at, Loc.togo]), ?_⟩
    by_cases hi : i = 0 <;> simp [main_with, abort_at, hi, hst]
  · refine ⟨.L17, true, .aborted 1, Or.inr (Or.inr rfl), Or.inr ⟨rfl, rfl, rfl⟩,
      (fun h => by cases h), ?_⟩
    by_cases hi : i = 0 <;> simp [main_with, abort_at, hi]

theorem Aborting.preserved {a b : Int} {pol : Policy} {n : Nat} (hn : n ≠ 2) {w w' : World}
    (h : Aborting n w) (hs : w' ∈ steps (main_with a b) pol w) :
    Aborting n w' ∧ w'.togo < w.togo := by
  unfold steps at hs
  cases hstat : w.status with
  | aborted c => rw [hstat] at hs; cases hs
  | running =>
    rw [hstat] at hs
    simp only [List.mem_flatMap, List.mem_range] at hs
    obtain ⟨i, hi, hs⟩ := hs
    obtain ⟨p, hpi⟩ : ∃ p, w.procs[i]? = some p :=
      ⟨w.procs[i], List.getElem?_eq_getElem hi⟩
    obtain ⟨l, c, s, hl, hcs, hlt, heq⟩ : ∃ l c s, _ ∧ _ ∧ _ ∧ stepsOf (main_with a b) pol w i = _ :=
      Aborting.stepsOf_eq hn h hstat hpi
    rw [heq] at hs
    simp only [List.mem_singleton] at hs
    subst hs
    refine ⟨h.update i l c s hstat hi hl hcs, ?_⟩
    cases s with
    | aborted c' => simp [World.togo, hstat]
    | running =>
      simp only [World.togo, hstat]
      have := sum_set_lt (fun p => p.pc.togo) w.procs i p (abort_at n i l c) hpi (hlt rfl)
      omega

theorem reach_aborting {a b : Int} {pol : Policy} {n : Nat} (hn : n ≠ 2) {w : World}
    (h : Reach (main_with a b) pol (World.init n) w) : Aborting n w :=
  Reach.invariant (Aborting n) (fun _ _ hI hs => (Aborting.preserved hn hI hs).1) h (init_aborting n)

theorem Aborting.live {a b : Int} (pol : Policy) {n : Nat} (hn : n ≠ 2) (h1 : 1 ≤ n) {w : World}
    (h : Aborting n w) (hst : w.status = .running) :
    steps (main_with a b) pol w ≠ [] := by
  have hlen : 0 < w.procs.length := by rw [h.1]; exact h1
  obtain ⟨l, c, s, _, _, _, heq⟩ : ∃ l c s, _ ∧ _ ∧ _ ∧ stepsOf (main_with a b) pol w 0 = _ :=
    Aborting.stepsOf_eq hn h hst (List.getElem?_eq_getElem hlen)
  intro hnil
  have : _ ∈ steps (main_with a b) pol w := mem_steps hst hlen
    (by rw [heq]; exact List.mem_singleton_self _)
  rw [hnil] at this
  cases this

theorem Aborting.aborts {a b : Int} (pol : Policy) {n : Nat} (hn : n ≠ 2) (h1 : 1 ≤ n)
    {w : World} (h : Aborting n w) :
    ∃ w', Reach (main_with a b) pol w w' ∧ w'.status = .aborted 1 := by
  have key := @finishes (main_with a b) pol (Aborting n) (fun w => w.status = .aborted 1) (by
      intro w hI
      rcases hI.2.2.2.1 with hr | ⟨ha, _⟩
      · obtain ⟨w', hw'⟩ := List.exists_mem_of_ne_nil _ (@Aborting.live a b pol n hn h1 w hI hr)
        have := Aborting.preserved hn hI hw'
        exact Or.inr ⟨w', hw', this.1, this.2⟩
      · exact Or.inl ha) w.togo w le_rfl h
  obtain ⟨w', hr, _, hd⟩ := key
  exact ⟨w', hr, hd⟩

theorem wrap_int_of_range (x : Int) (hlo : INT_MIN ≤ x) (hhi : x ≤ INT_MAX) : wrap_int x = x := by
  unfold INT_MIN at hlo
  unfold INT_MAX at hhi
  unfold wrap_int
  omega

theorem reach_finished (a b : Int) (pol : Policy) :
    Reach (main_with a b) pol (World.init 2) (finished a b) :=
  Canon.completes pol ⟨.L13, .L13, rfl, init_two a b⟩

theorem completed_eq {a b : Int} {pol : Policy} {w : World}
    (h : Reach (main_with a b) pol (World.init 2) w) (hc : w.completed = true) :
    w = finished a b := by
  obtain ⟨l0, l1, hv, rfl⟩ := reach_canon h
  obtain ⟨rfl, rfl⟩ := canon_completed a b l0 l1 hv hc
  rfl

theorem lt_two {r : Nat} (h : r < 2) : r = 0 ∨ r = 1 := by omega

theorem canon_prints (a b : Int) (l0 l1 : Loc) (hv : valid l0 l1 = true) (r : Nat) (hr : r < 2) :
    ((canon a b l0 l1).traceOf r).countP Event.isStdout ≤ 1 ∧
    ∀ line, Event.stdout line ∈ (canon a b l0 l1).traceOf r →
      (∃ s, (canon a b l0 l1).sumOf r = some s ∧ line = final_line r s) ∧
      (beforePrint ((canon a b l0 l1).traceOf r)).countP Event.isSent = 1 ∧
      (beforePrint ((canon a b l0 l1).traceOf r)).countP Event.isReceived = 1 := by
  rcases lt_two hr with rfl | rfl
  · cases l0 <;>
      simp [canon, World.traceOf, World.sumOf, rank0_at, beforePrint, Event.isStdout,
        Event.isSent, Event.isReceived]
  · cases l1 <;>
      simp [canon, World.traceOf, World.sumOf, rank1_at, beforePrint, Event.isStdout,
        Event.isSent, Event.isReceived]

theorem canon_sync (a b : Int) (l0 l1 : Loc) (hv : valid l0 l1 = true)
    (hs : inStep (canon a b l0 l1) = true) :
    (canon a b l0 l1).chan = [] ∧
    ((canon a b l0 l1).wire = [] ∨ (canon a b l0 l1).wire = [msg_up b] ∨
      (canon a b l0 l1).wire = [msg_up b, msg_down a b]) ∧
    (Event.sent 0 0 b ∈ (canon a b l0 l1).traceOf 1 ↔
      Event.received 1 0 b ∈ (canon a b l0 l1).traceOf 0) ∧
    (Event.sent 1 0 (wrap_int (a + b)) ∈ (canon a b l0 l1).traceOf 0 ↔
      Event.received 0 0 (wrap_int (a + b)) ∈ (canon a b l0 l1).traceOf 1) := by
  cases l0 <;> cases l1 <;> simp [valid, on0, on1, got0, got1, sent1, replied0] at hv <;>
    simp [inStep, canon, rank0_at, rank1_at, got0, got1, sent1, replied0] at hs <;>
    simp [canon, World.traceOf, rank0_at, rank1_at, got0, got1, sent1, replied0]

theorem Aborting.sumOf_none {n : Nat} {w : World} (h : Aborting n w) (r : Nat) :
    w.sumOf r = none := by
  unfold World.sumOf
  cases hp : w.procs[r]? with
  | none => rfl
  | some p =>
    obtain ⟨l, c, rfl, _, _⟩ := h.2.2.2.2 r p hp
    rfl

theorem Aborting.of_mem {n : Nat} {w : World} (h : Aborting n w) {p : Proc} (hp : p ∈ w.procs) :
    (p.pc = .L13 ∨ p.pc = .L15 ∨ p.pc = .L17) ∧
    ∀ e ∈ p.trace, e = Event.stderr DIAG ∨ e = Event.abort 1 := by
  obtain ⟨i, hi⟩ := List.mem_iff_getElem?.mp hp
  obtain ⟨l, c, rfl, hl, _⟩ := h.2.2.2.2 i p hi
  refine ⟨hl, ?_⟩
  intro e he
  simp only [abort_at, List.mem_append] at he
  rcases he with he | he
  · split at he
    · simp at he; exact Or.inl he
    · cases he
  · split at he
    · simp at he; exact Or.inr he
    · cases he

theorem Aborting.not_completed {n : Nat} {w : World} (h : Aborting n w) (h1 : 1 ≤ n) :
    w.completed = false := by
  have hlen : 0 < w.procs.length := by rw [h.1]; exact h1
  have hmem : w.procs[0] ∈ w.procs := List.getElem_mem hlen
  have hpc := (h.of_mem hmem).1
  cases hc : w.completed with
  | false => rfl
  | true =>
    simp only [World.completed, Bool.and_eq_true, List.all_eq_true, decide_eq_true_eq] at hc
    have := hc.2 _ hmem
    rw [this] at hpc
    simp at hpc

theorem Aborting.request {a b : Int} {n : Nat} {w : World} (h : Aborting n w)
    {p : Proc} (hp : p ∈ w.procs) :
    ∃ p', main_with a b p = .step p' ∨ main_with a b p = .abort 1 p' := by
  obtain ⟨i, hi⟩ := List.mem_iff_getElem?.mp hp
  obtain ⟨l, c, rfl, hl, _⟩ := h.2.2.2.2 i p hi
  rcases hl with rfl | rfl | rfl
  · simp only [main_with, abort_at]
    split <;> exact ⟨_, Or.inl rfl⟩
  · simp only [main_with, abort_at]
    split <;> exact ⟨_, Or.inl rfl⟩
  · exact ⟨_, Or.inr rfl⟩

theorem Aborting.traces {n : Nat} {w : World} (h : Aborting n w) :
    (w.traceOf 0 = [] ∨ w.traceOf 0 = [.stderr DIAG] ∨
      w.traceOf 0 = [.stderr DIAG, .abort 1]) ∧
    (∀ p, w.procs[0]? = some p → p.pc = .L17 → w.traceOf 0 ≠ []) ∧
    (∀ r, r ≠ 0 → w.traceOf r = [] ∨ w.traceOf r = [.abort 1]) := by
  refine ⟨?_, ?_, ?_⟩
  · unfold World.traceOf
    cases hp : w.procs[0]? with
    | none => exact Or.inl rfl
    | some p =>
      obtain ⟨l, c, rfl, hl, hc⟩ := h.2.2.2.2 0 p hp
      cases c
      · rcases hl with rfl | rfl | rfl <;> simp [abort_at]
      · obtain ⟨rfl, _⟩ := hc rfl
        simp [abort_at]
  · intro p hp hpc
    obtain ⟨l, c, rfl, hl, hc⟩ := h.2.2.2.2 0 p hp
    simp only [abort_at] at hpc
    subst hpc
    simp [World.traceOf, hp, abort_at]
  · intro r hr
    unfold World.traceOf
    cases hp : w.procs[r]? with
    | none => exact Or.inl rfl
    | some p =>
      obtain ⟨l, c, rfl, hl, hc⟩ := h.2.2.2.2 r p hp
      cases c <;> simp [abort_at, hr]

theorem sum_le_one (f : Proc → Nat) (l : List Proc)
    (h : ∀ i p, l[i]? = some p → f p ≤ if i = 0 then 1 else 0) : (l.map f).sum ≤ 1 := by
  cases l with
  | nil => simp
  | cons x xs =>
    have hx : f x ≤ 1 := by simpa using h 0 x (by simp)
    have hxs : ∀ (ys : List Proc), (∀ p ∈ ys, f p = 0) → (ys.map f).sum = 0 := by
      intro ys
      induction ys with
      | nil => intro _; rfl
      | cons y ys ih =>
        intro hy
        simp only [List.map_cons, List.sum_cons]
        rw [hy y (List.mem_cons_self _ _), ih (fun p hp => hy p (List.mem_cons_of_mem _ hp))]
    have : (xs.map f).sum = 0 := by
      apply hxs
      intro p hp
      obtain ⟨i, hi⟩ := List.mem_iff_getElem?.mp hp
      have := h (i + 1) p (by simpa using hi)
      simpa using this
    simp only [List.map_cons, List.sum_cons]
    omega

theorem Aborting.one_diag {n : Nat} {w : World} (h : Aborting n w) :
    (w.procs.map (fun p => p.trace.countP Event.isStderr)).sum ≤ 1 := by
  apply sum_le_one
  intro i p hp
  obtain ⟨l, c, rfl, hl, hc⟩ := h.2.2.2.2 i p hp
  by_cases hi : i = 0
  · subst hi
    cases c <;> rcases hl with rfl | rfl | rfl <;> simp [abort_at, Event.isStderr, List.countP_cons]
  · cases c <;> simp [abort_at, hi, Event.isStderr, List.countP_cons]

theorem first_requests (a b : Int) (r s : Int) (hs : s ≠ 2) :
    ∃ p1 p2 p3, main_with a b (Proc.init r s) = .step p1 ∧ main_with a b p1 = .step p2 ∧
      main_with a b p2 = .abort 1 p3 ∧
      p3.trace = (if r = 0 then [Event.stderr DIAG] else []) ++ [Event.abort 1] := by
  refine ⟨{ Proc.init r s with pc := .L15 },
    { Proc.init r s with pc := .L17, trace := if r = 0 then [.stderr DIAG] else [] },
    { Proc.init r s with pc := .L17,
                         trace := (if r = 0 then [.stderr DIAG] else []) ++ [.abort 1] },
    ?_, ?_, ?_, rfl⟩
  · simp [main_with, Proc.init, hs]
  · by_cases h0 : r = 0 <;> simp [main_with, Proc.init, h0]
  · simp [main_with, Proc.init]

theorem reach_alone_aborted : Reach main synchronous (World.init 1) alone_aborted := by
  have s1 : (⟨[abort_at 1 0 .L15 false], [], [], .running⟩ : World) ∈
      steps main synchronous (World.init 1) := by decide
  have s2 : (⟨[abort_at 1 0 .L17 false], [], [], .running⟩ : World) ∈
      steps main synchronous ⟨[abort_at 1 0 .L15 false], [], [], .running⟩ := by decide
  have s3 : alone_aborted ∈
      steps main synchronous ⟨[abort_at 1 0 .L17 false], [], [], .running⟩ := by decide
  exact ((Relation.ReflTransGen.refl.tail s1).tail s2).tail s3

theorem reach_rank1_aborted_first :
    Reach main synchronous (World.init 3) rank1_aborted_first := by
  have s1 : (⟨[abort_at 3 0 .L13 false, abort_at 3 1 .L15 false, abort_at 3 2 .L13 false],
      [], [], .running⟩ : World) ∈ steps main synchronous (World.init 3) := by decide
  have s2 : (⟨[abort_at 3 0 .L13 false, abort_at 3 1 .L17 false, abort_at 3 2 .L13 false],
      [], [], .running⟩ : World) ∈ steps main synchronous
      ⟨[abort_at 3 0 .L13 false, abort_at 3 1 .L15 false, abort_at 3 2 .L13 false],
        [], [], .running⟩ := by decide
  have s3 : rank1_aborted_first ∈ steps main synchronous
      ⟨[abort_at 3 0 .L13 false, abort_at 3 1 .L17 false, abort_at 3 2 .L13 false],
        [], [], .running⟩ := by decide
  exact ((Relation.ReflTransGen.refl.tail s1).tail s2).tail s3

theorem known0_moves (a b : Int) {p q : Proc} (h : known0 a p)
    (hm : Proc.moves (main_with a b) p q) : known0 a q := by
  obtain ⟨rank, size, lv, sum, rv, pc, trace⟩ := p
  obtain ⟨hr, hs, hk⟩ := h
  simp only at hr hs
  subst hr hs
  cases pc <;> cases lv <;> cases rv <;> cases sum <;>
    simp [known0] at hk <;> simp [Proc.moves, main_with] at hm <;>
    obtain ⟨v, rfl⟩ := hm <;> simp_all [known0]

theorem known1_moves (a b : Int) {p q : Proc} (h : known1 b p)
    (hm : Proc.moves (main_with a b) p q) : known1 b q := by
  obtain ⟨rank, size, lv, sum, rv, pc, trace⟩ := p
  obtain ⟨hr, hs, hk⟩ := h
  simp only at hr hs
  subst hr hs
  cases pc <;> cases lv <;> cases sum <;>
    simp [known1] at hk <;> simp [Proc.moves, main_with] at hm <;>
    obtain ⟨v, rfl⟩ := hm <;> simp_all [known1]

theorem known0_defined (a b : Int) {q : Proc} (h : known0 a q) :
    main_with a b q ≠ .undefined ∧
    (q.pc = .L48 → ∃ x y, q.local_value = some x ∧ q.received_value = some y ∧
      q.sum = some (wrap_int (x + y))) := by
  obtain ⟨rank, size, lv, sum, rv, pc, trace⟩ := q
  obtain ⟨hr, hs, hk⟩ := h
  cases pc <;> cases lv <;> cases rv <;> cases sum <;>
    simp [known0] at hk <;> simp_all [main_with]

theorem known1_defined (a b : Int) {q : Proc} (h : known1 b q) :
    main_with a b q ≠ .undefined ∧
    (q.pc = .L48 → ∃ v, q.sum = some v ∧ Event.received 0 0 v ∈ q.trace) := by
  obtain ⟨rank, size, lv, sum, rv, pc, trace⟩ := q
  obtain ⟨hr, hs, hk⟩ := h
  cases pc <;> cases lv <;> cases sum <;>
    simp [known1] at hk <;> simp_all [main_with]

theorem rank1_runs (a b v : Int) :
    Proc.Runs (main_with a b) (Proc.init 1 2) (rank1_got b v) := by
  have s1 : Proc.moves (main_with a b) (Proc.init 1 2) ⟨1, 2, none, none, none, .L21, []⟩ := by
    simp [Proc.moves, main_with, Proc.init]
  have s2 : Proc.moves (main_with a b) ⟨1, 2, none, none, none, .L21, []⟩
      ⟨1, 2, some b, none, none, .L30, []⟩ := by
    simp [Proc.moves, main_with]
  have s3 : Proc.moves (main_with a b) ⟨1, 2, some b, none, none, .L30, []⟩
      ⟨1, 2, some b, none, none, .L33, []⟩ := by
    simp [Proc.moves, main_with]
  have s4 : Proc.moves (main_with a b) ⟨1, 2, some b, none, none, .L33, []⟩
      ⟨1, 2, some b, none, none, .L35, [.sent 0 0 b]⟩ := by
    simp [Proc.moves, main_with]
  have s5 : Proc.moves (main_with a b) ⟨1, 2, some b, none, none, .L35, [.sent 0 0 b]⟩
      (rank1_got b v) := by
    simp [Proc.moves, main_with, rank1_got]
  exact ((((Relation.ReflTransGen.refl.tail s1).tail s2).tail s3).tail s4).tail s5

/-- A rank outside `[0, size)` passes the size check of a group of two, takes
neither branch of line 30 and reads `sum` unassigned at line 48. -/
theorem rank_out_of_range_reads_unassigned (a b : Int) :
    ∃ q, Proc.Runs (main_with a b) (Proc.init 2 2) q ∧ q.pc = .L48 ∧ q.sum = none ∧
      main_with a b q = .undefined := by
  have s1 : Proc.moves (main_with a b) (Proc.init 2 2) ⟨2, 2, none, none, none, .L21, []⟩ := by
    simp [Proc.moves, main_with, Proc.init]
  have s2 : Proc.moves (main_with a b) ⟨2, 2, none, none, none, .L21, []⟩
      ⟨2, 2, some b, none, none, .L30, []⟩ := by
    simp [Proc.moves, main_with]
  have s3 : Proc.moves (main_with a b) ⟨2, 2, some b, none, none, .L30, []⟩
      ⟨2, 2, some b, none, none, .L48, []⟩ := by
    simp [Proc.moves, main_with]
  exact ⟨_, ((Relation.ReflTransGen.refl.tail s1).tail s2).tail s3, rfl, rfl, rfl⟩

/-! ## The claims -/

/-- C1. In a group of two, with local values `a` at rank 0 and `b` at rank 1
whose sum is an `int`, every run can be continued to completion, under every
buffering policy, and every completed run leaves `a + b` in `sum` at rank 0
and at rank 1.  For the literals of the program, 3 and 5, that is 8. -/
theorem two_rank_sum (a b : Int) (hlo : INT_MIN ≤ a + b) (hhi : a + b ≤ INT_MAX)
    (pol : Policy) (w : World) (h : Reach (main_with a b) pol (World.init 2) w) :
    (∃ w', Reach (main_with a b) pol w w' ∧ w'.completed = true) ∧
    (w.completed = true → w.sumOf 0 = some (a + b) ∧ w.sumOf 1 = some (a + b)) := by
  refine ⟨⟨finished a b, Canon.completes pol (reach_canon h), rfl⟩, ?_⟩
  intro hc
  rw [completed_eq h hc]
  simp [finished, canon, World.sumOf, rank0_at, rank1_at, wrap_int_of_range _ hlo hhi]

/-- C1 for the program as written: the run of `main` in a group of two ends
with 8 at both ranks. -/
theorem two_rank_sum_main :
    ((INT_MIN ≤ 3 + 5 ∧ 3 + 5 ≤ INT_MAX) ∧
      Reach main synchronous (World.init 2) (finished 3 5)) ∧
    (∃ w', Reach main synchronous (finished 3 5) w' ∧ w'.completed = true) ∧
    ((finished 3 5).completed = true →
      (finished 3 5).sumOf 0 = some 8 ∧ (finished 3 5).sumOf 1 = some 8) :=
  ⟨⟨⟨by decide, by decide⟩, reach_finished 3 5 synchronous⟩,
    two_rank_sum 3 5 (by decide) (by decide) synchronous (finished 3 5)
      (reach_finished 3 5 synchronous)⟩

/-- C2. In a group of any size other than 2 no process goes on to the
exchange.  The first request a process of any rank makes of the runtime is
`abort` with code 1, after the two local statements of lines 13 and 15.
Along every run nothing is sent and nothing is in the channel, every process
stands in lines 13 to 17 with nothing in its history but the diagnostic and
the abort call (so no final-sum line), the group ends only with code 1, and
the statement every process stands at is a local one or `abort 1`: none
waits on a receive.  With at least one process the run can
only stop aborted, and the abort is reached. -/
theorem wrong_size_aborts (a b : Int) (n : Nat) (hn : n ≠ 2) (pol : Policy) (w : World)
    (h : Reach (main_with a b) pol (World.init n) w) :
    (∀ r : Int, ∃ p1 p2 p3, main_with a b (Proc.init r n) = .step p1 ∧
      main_with a b p1 = .step p2 ∧ main_with a b p2 = .abort 1 p3) ∧
    w.wire = [] ∧ w.chan = [] ∧
    (∀ p ∈ w.procs, (p.pc = .L13 ∨ p.pc = .L15 ∨ p.pc = .L17) ∧
      ∀ e ∈ p.trace, e = Event.stderr DIAG ∨ e = Event.abort 1) ∧
    (∀ c, w.status = .aborted c → c = 1) ∧
    (∀ p ∈ w.procs, ∃ p', main_with a b p = .step p' ∨ main_with a b p = .abort 1 p') ∧
    (1 ≤ n → steps (main_with a b) pol w = [] → w.status = .aborted 1) ∧
    (1 ≤ n → ∃ w', Reach (main_with a b) pol w w' ∧ w'.status = .aborted 1) := by
  have hA := reach_aborting hn h
  have hn' : (n : Int) ≠ 2 := by exact_mod_cast hn
  refine ⟨?_, hA.2.2.1, hA.2.1, fun p hp => hA.of_mem hp, ?_, ?_, ?_, ?_⟩
  · intro r
    obtain ⟨p1, p2, p3, h1, h2, h3, _⟩ := first_requests a b r n hn'
    exact ⟨p1, p2, p3, h1, h2, h3⟩
  · intro c hc
    rcases hA.2.2.2.1 with hr | ⟨ha, _⟩
    · rw [hr] at hc; cases hc
    · rw [ha] at hc; cases hc; rfl
  · intro p hp
    exact hA.request hp
  · intro h1 hnil
    rcases hA.2.2.2.1 with hr | ⟨ha, _⟩
    · exact absurd hnil (hA.live pol hn h1 hr)
    · exact ha
  · intro h1
    exact hA.aborts pol hn h1

/-- C2 for `main` started as a group of three. -/
theorem wrong_size_aborts_three :
    (3 ≠ 2 ∧ Reach main synchronous (World.init 3) (World.init 3)) ∧
    (∀ r : Int, ∃ p1 p2 p3, main (Proc.init r (3 : Nat)) = .step p1 ∧
      main p1 = .step p2 ∧ main p2 = .abort 1 p3) ∧
    (World.init 3).wire = [] ∧ (World.init 3).chan = [] ∧
    (∀ p ∈ (World.init 3).procs, (p.pc = .L13 ∨ p.pc = .L15 ∨ p.pc = .L17) ∧
      ∀ e ∈ p.trace, e = Event.stderr DIAG ∨ e = Event.abort 1) ∧
    (∀ c, (World.init 3).status = .aborted c → c = 1) ∧
    (∀ p ∈ (World.init 3).procs, ∃ p', main p = .step p' ∨ main p = .abort 1 p') ∧
    (1 ≤ 3 → steps main synchronous (World.init 3) = [] →
      (World.init 3).status = .aborted 1) ∧
    (1 ≤ 3 → ∃ w', Reach main synchronous (World.init 3) w' ∧ w'.status = .aborted 1) :=
  ⟨⟨by decide, Relation.ReflTransGen.refl⟩,
    wrong_size_aborts 3 5 3 (by decide) synchronous (World.init 3) Relation.ReflTransGen.refl⟩

/-- C3, as stated, fails for the program: a group of one never completes and
rank 0 never holds a final value.  Its run ends with the diagnostic printed
and the group aborted with code 1. -/
theorem alone_returns_nothing :
    (Reach main synchronous (World.init 1) alone_aborted ∧
      steps main synchronous alone_aborted = [] ∧
      alone_aborted.status = .aborted 1 ∧
      alone_aborted.completed = false ∧
      alone_aborted.sumOf 0 = none ∧
      alone_aborted.traceOf 0 = [.stderr DIAG, .abort 1]) ∧
    ∀ w, Reach main synchronous (World.init 1) w → w.completed = false ∧ w.sumOf 0 = none :=
  ⟨⟨reach_alone_aborted, by decide, rfl, by decide, by decide, by decide⟩,
    fun _ h => ⟨(reach_aborting (by decide) h).not_completed (by decide),
      (reach_aborting (by decide) h).sumOf_none 0⟩⟩

/-- C3, amended.  In a group of one the single process, rank 0, sends nothing
and receives nothing, and it returns no value: `local_value` and `sum` are
never assigned and the run never completes.  It prints the diagnostic and
calls `abort` with code 1, which is where every run ends. -/
theorem alone_aborts (a b : Int) (pol : Policy) (w : World)
    (h : Reach (main_with a b) pol (World.init 1) w) :
    w.wire = [] ∧ w.chan = [] ∧
    (∀ e ∈ w.traceOf 0, e = Event.stderr DIAG ∨ e = Event.abort 1) ∧
    w.completed = false ∧
    (∀ p ∈ w.procs, p.local_value = none ∧ p.sum = none) ∧
    (steps (main_with a b) pol w = [] →
      w.status = .aborted 1 ∧ w.traceOf 0 = [.stderr DIAG, .abort 1]) ∧
    ∃ w', Reach (main_with a b) pol w w' ∧ w'.status = .aborted 1 := by
  have hA : Aborting 1 w := reach_aborting (by decide) h
  refine ⟨hA.2.2.1, hA.2.1, ?_, hA.not_completed le_rfl, ?_, ?_, hA.aborts pol (by decide) le_rfl⟩
  · rcases hA.traces.1 with h0 | h0 | h0 <;> rw [h0] <;> simp
  · intro p hp
    obtain ⟨i, hi⟩ := List.mem_iff_getElem?.mp hp
    obtain ⟨l, c, rfl, _, _⟩ := hA.2.2.2.2 i p hi
    exact ⟨rfl, rfl⟩
  · intro hnil
    rcases hA.2.2.2.1 with hr | ⟨ha, i, hi⟩
    · exact absurd hnil (hA.live pol (by decide) le_rfl hr)
    · refine ⟨ha, ?_⟩
      have hlt : i < w.procs.length := by
        by_contra hge
        rw [List.getElem?_eq_none (by omega)] at hi
        cases hi
      have : i = 0 := by rw [hA.1] at hlt; omega
      subst this
      simp [World.traceOf, hi, abort_at]

/-- C3, amended, for `main` run alone, at the end of its run. -/
theorem alone_aborts_end :
    Reach main synchronous (World.init 1) alone_aborted ∧
    alone_aborted.wire = [] ∧ alone_aborted.chan = [] ∧
    (∀ e ∈ alone_aborted.traceOf 0, e = Event.stderr DIAG ∨ e = Event.abort 1) ∧
    alone_aborted.completed = false ∧
    (∀ p ∈ alone_aborted.procs, p.local_value = none ∧ p.sum = none) ∧
    (steps main synchronous alone_aborted = [] →
      alone_aborted.status = .aborted 1 ∧
      alone_aborted.traceOf 0 = [.stderr DIAG, .abort 1]) ∧
    ∃ w', Reach main synchronous alone_aborted w' ∧ w'.status = .aborted 1 :=
  ⟨reach_alone_aborted, alone_aborts 3 5 synchronous alone_aborted reach_alone_aborted⟩

/-- C4, as stated, fails for the program: with four ranks no run completes
and no rank ever holds a final sum, so none reports the sum of the values.
The group is aborted with code 1, here by rank 1. -/
theorem four_ranks_no_sum :
    (∀ w, Reach main synchronous (World.init 4) w →
      w.completed = false ∧ ∀ r, w.sumOf r = none) ∧
    ∃ w, Reach main synchronous (World.init 4) w ∧ w.status = .aborted 1 ∧
      steps main synchronous w = [] :=
  ⟨fun _ h => ⟨(reach_aborting (by decide) h).not_completed (by decide),
      (reach_aborting (by decide) h).sumOf_none⟩,
    by
      obtain ⟨w, hr, hs⟩ := @Aborting.aborts 3 5 synchronous 4 (by decide) (by decide) _
        (init_aborting 4)
      exact ⟨w, hr, hs, by simp [steps, hs]⟩⟩

/-- C4, amended.  A group of at least one process reaches a final value only
when its size is 2: then completion is reachable and in a completed run every
rank holds the sum of the vector `[a, b]` of the two local values, rank 0
having received once, from rank 1.  For every other size no run completes, no
rank is ever assigned a `sum`, and the group is aborted with code 1. -/
theorem sum_only_for_two (a b : Int) (hlo : INT_MIN ≤ a + b) (hhi : a + b ≤ INT_MAX)
    (n : Nat) (h1 : 1 ≤ n) (pol : Policy) (w : World)
    (h : Reach (main_with a b) pol (World.init n) w) :
    (n = 2 →
      (∃ w', Reach (main_with a b) pol w w' ∧ w'.completed = true) ∧
      (w.completed = true →
        (∀ r, r < n → w.sumOf r = some [a, b].sum) ∧
        (w.traceOf 0).filter Event.isReceived = [.received 1 0 b])) ∧
    (n ≠ 2 →
      w.completed = false ∧ (∀ r, w.sumOf r = none) ∧
      ∃ w', Reach (main_with a b) pol w w' ∧ w'.status = .aborted 1) := by
  constructor
  · rintro rfl
    refine ⟨⟨finished a b, Canon.completes pol (reach_canon h), rfl⟩, ?_⟩
    intro hc
    rw [completed_eq h hc]
    refine ⟨?_, rfl⟩
    intro r hr
    rcases lt_two hr with rfl | rfl <;>
      simp [finished, canon, World.sumOf, rank0_at, rank1_at, wrap_int_of_range _ hlo hhi]
  · intro hn
    have hA := reach_aborting hn h
    exact ⟨hA.not_completed h1, hA.sumOf_none, hA.aborts pol hn h1⟩

/-- C4, amended, for the completed run of `main` in a group of two. -/
theorem sum_only_for_two_main :
    ((INT_MIN ≤ 3 + 5 ∧ 3 + 5 ≤ INT_MAX) ∧ 1 ≤ 2 ∧
      Reach main buffered (World.init 2) (finished 3 5)) ∧
    (2 = 2 →
      (∃ w', Reach main buffered (finished 3 5) w' ∧ w'.completed = true) ∧
      ((finished 3 5).completed = true →
        (∀ r, r < 2 → (finished 3 5).sumOf r = some [3, 5].sum) ∧
        ((finished 3 5).traceOf 0).filter Event.isReceived = [.received 1 0 5])) ∧
    (2 ≠ 2 →
      (finished 3 5).completed = false ∧ (∀ r, (finished 3 5).sumOf r = none) ∧
      ∃ w', Reach main buffered (finished 3 5) w' ∧ w'.status = .aborted 1) :=
  ⟨⟨⟨by decide, by decide⟩, by decide, reach_finished 3 5 buffered⟩,
    sum_only_for_two 3 5 (by decide) (by decide) 2 (by decide) buffered (finished 3 5)
      (reach_finished 3 5 buffered)⟩

/-- C5. Under the synchronous channel every state the two-rank run can reach
is the completed one or has an enabled move, and completion stays reachable.
No message is ever left in the channel: rank 1's send of line 33 is passed
together with rank 0's receive of line 41, and after it rank 0's send of
line 44 together with rank 1's receive of line 35. -/
theorem sync_never_blocks (a b : Int) (w : World)
    (h : Reach (main_with a b) synchronous (World.init 2) w) :
    (w.completed = true ∨ ∃ w', Step (main_with a b) synchronous w w') ∧
    (∃ w', Reach (main_with a b) synchronous w w' ∧ w'.completed = true) ∧
    w.chan = [] ∧
    (w.wire = [] ∨ w.wire = [msg_up b] ∨ w.wire = [msg_up b, msg_down a b]) ∧
    (Event.sent 0 0 b ∈ w.traceOf 1 ↔ Event.received 1 0 b ∈ w.traceOf 0) ∧
    (Event.sent 1 0 (wrap_int (a + b)) ∈ w.traceOf 0 ↔
      Event.received 0 0 (wrap_int (a + b)) ∈ w.traceOf 1) := by
  obtain ⟨hc, hi⟩ := reach_inStep h
  refine ⟨?_, ⟨finished a b, Canon.completes synchronous hc, rfl⟩, ?_⟩
  · obtain ⟨l0, l1, hv, rfl⟩ := hc
    rcases canon_live a b synchronous l0 l1 hv with ⟨rfl, rfl⟩ | hne
    · exact Or.inl rfl
    · obtain ⟨w', hw'⟩ := List.exists_mem_of_ne_nil _ hne
      exact Or.inr ⟨w', hw'⟩
  · obtain ⟨l0, l1, hv, rfl⟩ := hc
    exact canon_sync a b l0 l1 hv hi

/-- C5 at the start of the run of `main`. -/
theorem sync_never_blocks_start :
    Reach main synchronous (World.init 2) (World.init 2) ∧
    ((World.init 2).completed = true ∨ ∃ w', Step main synchronous (World.init 2) w') ∧
    (∃ w', Reach main synchronous (World.init 2) w' ∧ w'.completed = true) ∧
    (World.init 2).chan = [] ∧
    ((World.init 2).wire = [] ∨ (World.init 2).wire = [msg_up 5] ∨
      (World.init 2).wire = [msg_up 5, msg_down 3 5]) ∧
    (Event.sent 0 0 5 ∈ (World.init 2).traceOf 1 ↔
      Event.received 1 0 5 ∈ (World.init 2).traceOf 0) ∧
    (Event.sent 1 0 (wrap_int (3 + 5)) ∈ (World.init 2).traceOf 0 ↔
      Event.received 0 0 (wrap_int (3 + 5)) ∈ (World.init 2).traceOf 1) :=
  ⟨Relation.ReflTransGen.refl, sync_never_blocks 3 5 (World.init 2) Relation.ReflTransGen.refl⟩

/-- C6. A completed two-rank run has put exactly `2 * (2 - 1) = 2` messages
on the wire: first rank 1's local value `b` to rank 0, then rank 0's `sum` to
rank 1.  Nothing is left in the channel, and each rank has one send and one
receive in its history. -/
theorem two_transmissions (a b : Int) (pol : Policy) (w : World)
    (h : Reach (main_with a b) pol (World.init 2) w) (hc : w.completed = true) :
    w.wire.length = 2 * (2 - 1) ∧
    (∃ s, w.sumOf 0 = some s ∧ w.wire = [⟨1, 0, 0, b⟩, ⟨0, 1, 0, s⟩]) ∧
    w.chan = [] ∧
    ∀ r, r < 2 → (w.traceOf r).countP Event.isSent = 1 ∧
      (w.traceOf r).countP Event.isReceived = 1 := by
  rw [completed_eq h hc]
  refine ⟨rfl, ⟨wrap_int (a + b), rfl, rfl⟩, rfl, ?_⟩
  intro r hr
  rcases lt_two hr with rfl | rfl <;> exact ⟨rfl, rfl⟩

/-- C6 for the completed run of `main` over a buffering channel. -/
theorem two_transmissions_main :
    (Reach main buffered (World.init 2) (finished 3 5) ∧ (finished 3 5).completed = true) ∧
    (finished 3 5).wire.length = 2 * (2 - 1) ∧
    (∃ s, (finished 3 5).sumOf 0 = some s ∧ (finished 3 5).wire = [⟨1, 0, 0, 5⟩, ⟨0, 1, 0, s⟩]) ∧
    (finished 3 5).chan = [] ∧
    ∀ r, r < 2 → ((finished 3 5).traceOf r).countP Event.isSent = 1 ∧
      ((finished 3 5).traceOf r).countP Event.isReceived = 1 :=
  ⟨⟨reach_finished 3 5 buffered, rfl⟩,
    two_transmissions 3 5 buffered (finished 3 5) (reach_finished 3 5 buffered) rfl⟩

/-- C7. For fixed local values the result does not depend on the run: two
completed two-rank runs, under any interleavings and any two buffering
policies, hold the same `sum` at rank 0 and the same `sum` at rank 1, and
both are assigned. -/
theorem sum_deterministic (a b : Int) (pol pol' : Policy) (w w' : World)
    (h : Reach (main_with a b) pol (World.init 2) w) (hc : w.completed = true)
    (h' : Reach (main_with a b) pol' (World.init 2) w') (hc' : w'.completed = true) :
    w.sumOf 0 = w'.sumOf 0 ∧ w.sumOf 1 = w'.sumOf 1 ∧
    (w.sumOf 0).isSome = true ∧ (w.sumOf 1).isSome = true := by
  rw [completed_eq h hc, completed_eq h' hc']
  exact ⟨rfl, rfl, rfl, rfl⟩

/-- C7 for `main`: a run over the synchronous channel against a run over a
buffering one. -/
theorem sum_deterministic_main :
    (Reach main synchronous (World.init 2) (finished 3 5) ∧ (finished 3 5).completed = true ∧
      Reach main buffered (World.init 2) (finished 3 5)) ∧
    (finished 3 5).sumOf 0 = (finished 3 5).sumOf 0 ∧
    (finished 3 5).sumOf 1 = (finished 3 5).sumOf 1 ∧
    ((finished 3 5).sumOf 0).isSome = true ∧ ((finished 3 5).sumOf 1).isSome = true :=
  ⟨⟨reach_finished 3 5 synchronous, rfl, reach_finished 3 5 buffered⟩,
    sum_deterministic 3 5 synchronous buffered (finished 3 5) (finished 3 5)
      (reach_finished 3 5 synchronous) rfl (reach_finished 3 5 buffered) rfl⟩

/-- C8. In a two-rank run each rank prints at most one line, and exactly one
once the run is completed.  The line is the text `Rank r: Final sum is s`
followed by a newline, with `r` its own rank and `s` its `sum` in decimal,
and the history of the rank before that line holds its one send and its one
receive. -/
theorem one_line_each (a b : Int) (pol : Policy) (w : World)
    (h : Reach (main_with a b) pol (World.init 2) w) (r : Nat) (hr : r < 2) :
    (w.traceOf r).countP Event.isStdout ≤ 1 ∧
    (w.completed = true →
      (w.traceOf r).countP Event.isStdout = 1 ∧
      ∃ s, w.sumOf r = some s ∧
        (w.traceOf r).filter Event.isStdout =
          [.stdout ("Rank " ++ toString (r : Int) ++ ": Final sum is " ++ toString s ++ "\n")]) ∧
    ∀ line, Event.stdout line ∈ w.traceOf r →
      (∃ s, w.sumOf r = some s ∧
        line = "Rank " ++ toString (r : Int) ++ ": Final sum is " ++ toString s ++ "\n") ∧
      (beforePrint (w.traceOf r)).countP Event.isSent = 1 ∧
      (beforePrint (w.traceOf r)).countP Event.isReceived = 1 := by
  refine ⟨?_, ?_, ?_⟩
  · obtain ⟨l0, l1, hv, rfl⟩ := reach_canon h
    exact (canon_prints a b l0 l1 hv r hr).1
  · intro hc
    rw [completed_eq h hc]
    rcases lt_two hr with rfl | rfl
    · exact ⟨rfl, wrap_int (a + b), rfl, rfl⟩
    · exact ⟨rfl, wrap_int (a + b), rfl, rfl⟩
  · obtain ⟨l0, l1, hv, rfl⟩ := reach_canon h
    intro line hl
    have key := (canon_prints a b l0 l1 hv r hr).2 line hl
    unfold final_line at key
    exact key

/-- C8 for rank 1 of the completed run of `main`: its one line is
`Rank 1: Final sum is 8`, printed after its send and its receive. -/
theorem one_line_each_main :
    (Reach main synchronous (World.init 2) (finished 3 5) ∧ 1 < 2 ∧
      (finished 3 5).traceOf 1 =
        [.sent 0 0 5, .received 0 0 8, .stdout "Rank 1: Final sum is 8\n", .exit 0] ∧
      (finished 3 5).traceOf 0 =
        [.received 1 0 5, .sent 1 0 8, .stdout "Rank 0: Final sum is 8\n", .exit 0]) ∧
    ((finished 3 5).traceOf 1).countP Event.isStdout ≤ 1 ∧
    ((finished 3 5).completed = true →
      ((finished 3 5).traceOf 1).countP Event.isStdout = 1 ∧
      ∃ s, (finished 3 5).sumOf 1 = some s ∧
        ((finished 3 5).traceOf 1).filter Event.isStdout =
          [.stdout ("Rank " ++ toString ((1 : Nat) : Int) ++ ": Final sum is " ++
            toString s ++ "\n")]) ∧
    ∀ line, Event.stdout line ∈ (finished 3 5).traceOf 1 →
      (∃ s, (finished 3 5).sumOf 1 = some s ∧
        line = "Rank " ++ toString ((1 : Nat) : Int) ++ ": Final sum is " ++
          toString s ++ "\n") ∧
      (beforePrint ((finished 3 5).traceOf 1)).countP Event.isSent = 1 ∧
      (beforePrint ((finished 3 5).traceOf 1)).countP Event.isReceived = 1 :=
  ⟨⟨reach_finished 3 5 synchronous, by decide, by decide, by decide⟩,
    one_line_each 3 5 synchronous (finished 3 5) (reach_finished 3 5 synchronous) 1 (by decide)⟩

/-- C9, as stated, fails for the program: in a group of three, rank 1 can
reach `MPI_Abort` while rank 0 still stands at line 13.  The group is then
over, aborted with code 1, and no process has printed the diagnostic. -/
theorem diagnostic_can_be_lost :
    Reach main synchronous (World.init 3) rank1_aborted_first ∧
    rank1_aborted_first.status = .aborted 1 ∧
    steps main synchronous rank1_aborted_first = [] ∧
    rank1_aborted_first.procs.map (fun p => p.pc) = [.L13, .L17, .L13] ∧
    rank1_aborted_first.traceOf 0 = [] ∧
    rank1_aborted_first.traceOf 1 = [.abort 1] ∧
    (rank1_aborted_first.procs.map (fun p => p.trace.countP Event.isStderr)).sum = 0 :=
  ⟨reach_rank1_aborted_first, rfl, by decide, by decide, by decide, by decide, by decide⟩

/-- C9, amended.  In a group of any size other than 2 the statements of
every rank lead to the abort call, rank 0 printing the diagnostic once on the
way and every other rank printing nothing.  Along every run at most one
diagnostic is printed in all, and only by rank 0: its history is empty, or
the diagnostic, or the diagnostic followed by the abort call, and it is not
empty once rank 0 stands at line 17.  Every other rank has an empty history
or just its abort call. -/
theorem at_most_one_diagnostic (a b : Int) (n : Nat) (hn : n ≠ 2) (pol : Policy) (w : World)
    (h : Reach (main_with a b) pol (World.init n) w) :
    (∀ r : Int, ∃ p1 p2 p3, main_with a b (Proc.init r n) = .step p1 ∧
      main_with a b p1 = .step p2 ∧ main_with a b p2 = .abort 1 p3 ∧
      p3.trace = (if r = 0 then [Event.stderr DIAG] else []) ++ [Event.abort 1]) ∧
    (w.procs.map (fun p => p.trace.countP Event.isStderr)).sum ≤ 1 ∧
    (w.traceOf 0 = [] ∨ w.traceOf 0 = [.stderr DIAG] ∨
      w.traceOf 0 = [.stderr DIAG, .abort 1]) ∧
    (∀ p, w.procs[0]? = some p → p.pc = .L17 → w.traceOf 0 ≠ []) ∧
    (∀ r, r ≠ 0 → w.traceOf r = [] ∨ w.traceOf r = [.abort 1]) :=
  ⟨fun r => first_requests a b r n (by exact_mod_cast hn),
    (reach_aborting hn h).one_diag, (reach_aborting hn h).traces⟩

/-- C9, amended, for `main` run alone, at the end of its run. -/
theorem at_most_one_diagnostic_alone :
    (1 ≠ 2 ∧ Reach main synchronous (World.init 1) alone_aborted) ∧
    (∀ r : Int, ∃ p1 p2 p3, main (Proc.init r (1 : Nat)) = .step p1 ∧
      main p1 = .step p2 ∧ main p2 = .abort 1 p3 ∧
      p3.trace = (if r = 0 then [Event.stderr DIAG] else []) ++ [Event.abort 1]) ∧
    (alone_aborted.procs.map (fun p => p.trace.countP Event.isStderr)).sum ≤ 1 ∧
    (alone_aborted.traceOf 0 = [] ∨ alone_aborted.traceOf 0 = [.stderr DIAG] ∨
      alone_aborted.traceOf 0 = [.stderr DIAG, .abort 1]) ∧
    (∀ p, alone_aborted.procs[0]? = some p → p.pc = .L17 → alone_aborted.traceOf 0 ≠ []) ∧
    (∀ r, r ≠ 0 → alone_aborted.traceOf r = [] ∨ alone_aborted.traceOf r = [.abort 1]) :=
  ⟨⟨by decide, reach_alone_aborted⟩,
    at_most_one_diagnostic 3 5 1 (by decide) synchronous alone_aborted reach_alone_aborted⟩

/-- C10. Take a process whose `size` is 2 and whose `rank` lies in
`[0, size)`, and let it run, its receives delivering any values.  It never
reads a variable that was not assigned, and whenever it stands at the
`printf` of line 48 its `sum` has been assigned: at rank 1 by the receive
from rank 0, at rank 0 as `local_value + received_value`. -/
theorem sum_assigned_before_print (a b : Int) (rank size : Int) (hs : size = 2)
    (h0 : 0 ≤ rank) (h1 : rank < size) (q : Proc)
    (h : Proc.Runs (main_with a b) (Proc.init rank size) q) :
    main_with a b q ≠ .undefined ∧
    (q.pc = .L48 →
      q.sum ≠ none ∧
      (rank = 1 → ∃ v, q.sum = some v ∧ Event.received 0 0 v ∈ q.trace) ∧
      (rank = 0 → ∃ x y, q.local_value = some x ∧ q.received_value = some y ∧
        q.sum = some (wrap_int (x + y)))) := by
  subst hs
  have hrank : rank = 0 ∨ rank = 1 := by omega
  rcases hrank with rfl | rfl
  · have hk : known0 a q := by
      induction h with
      | refl => exact ⟨rfl, rfl, trivial⟩
      | tail _ hm ih => exact known0_moves a b ih hm
    obtain ⟨hd, hp⟩ := known0_defined a b hk
    refine ⟨hd, fun hpc => ⟨?_, (fun h => absurd h (by decide)), fun _ => hp hpc⟩⟩
    obtain ⟨x, y, _, _, hsum⟩ := hp hpc
    rw [hsum]
    simp
  · have hk : known1 b q := by
      induction h with
      | refl => exact ⟨rfl, rfl, trivial⟩
      | tail _ hm ih => exact known1_moves a b ih hm
    obtain ⟨hd, hp⟩ := known1_defined a b hk
    refine ⟨hd, fun hpc => ⟨?_, fun _ => hp hpc, (fun h => absurd h (by decide))⟩⟩
    obtain ⟨v, hsum, _⟩ := hp hpc
    rw [hsum]
    simp

/-- C10 for rank 1 of `main` at line 48, having been sent 8. -/
theorem sum_assigned_before_print_rank1 :
    ((2 : Int) = 2 ∧ (0 : Int) ≤ 1 ∧ (1 : Int) < 2 ∧
      Proc.Runs main (Proc.init 1 2) (rank1_got 5 8)) ∧
    main (rank1_got 5 8) ≠ .undefined ∧
    ((rank1_got 5 8).pc = .L48 →
      (rank1_got 5 8).sum ≠ none ∧
      ((1 : Int) = 1 → ∃ v, (rank1_got 5 8).sum = some v ∧
        Event.received 0 0 v ∈ (rank1_got 5 8).trace) ∧
      ((1 : Int) = 0 → ∃ x y, (rank1_got 5 8).local_value = some x ∧
        (rank1_got 5 8).received_value = some y ∧
        (rank1_got 5 8).sum = some (wrap_int (x + y)))) :=
  ⟨⟨rfl, by decide, by decide, rank1_runs 3 5 8⟩,
    sum_assigned_before_print 3 5 1 2 rfl (by decide) (by decide) (rank1_got 5 8)
      (rank1_runs 3 5 8)⟩

end Mpi
